import Mathlib

set_option autoImplicit false

/-!
Shallow embedding of the `twlvprscs/state` repository: the `fsm` package
(`fsm/fsm.go`, `fsm/state.go`) and the `switchboard` register
(`switchboard/register.go`).

Conventions of the embedding:
* Go interface values that may be `nil` become `Option`.
* A Go `panic` (including a nil-interface method call, a `Store(nil)` on an
  `atomic.Value`, and an array index out of range) is modelled by the whole
  operation returning `none`.
* Go maps become association lists `List (Nat × β)`; assignment is
  replace-or-append (`mapInsert`), lookup is `mapFind?`.
* `uint64` identifiers become `Nat` (ids are only compared, never wrapped).
* `context.Context` is reduced to the one bit the engine inspects:
  whether the context is already cancelled (`Bool`).
* Caller-supplied guards (`TriggerFunc`) are arbitrary functions
  `Bool → α → Bool × Option ε` (context, input value, returning Go's
  `(bool, error)` pair with `error` as `Option ε`).
* The unused `Machine` fields `idx` and `cancel` are omitted: no operation
  modelled here reads or writes them.
-/

namespace Fsm

/-- Mirrors `machineState` in `fsm/state.go`: a state has a unique numeric
identifier and a human-readable name. -/
structure GoState where
  Id : Nat
  Name : String
deriving DecidableEq

/-- Mirrors `edge` in `fsm/state.go` (the concrete `Transition`): identifier,
description, source (`From`), target (`To`, possibly still unset), and the
caller-supplied guard (`Go`, the stored `TriggerFunc`). -/
structure Edge (α ε : Type) where
  Id : Nat
  Description : String
  From : Option GoState
  To : Option GoState
  Go : Bool → α → Bool × Option ε

/-- Mirrors `Machine` in `fsm/fsm.go`.  `curr` and `start` are the two
`atomic.Value` fields (`none` = never stored); `endStates` and `transitions`
are the two maps (`none` = nil map, `some` = allocated map as an association
list). -/
structure Machine (α ε : Type) where
  curr : Option GoState
  start : Option GoState
  endStates : Option (List (Nat × GoState))
  transitions : Option (List (Nat × List (Edge α ε)))

/-- The zero `Machine{}` used by `NewMachine`. -/
def Machine.empty {α ε : Type} : Machine α ε :=
  { curr := none, start := none, endStates := none, transitions := none }

/-- Association-list lookup, mirroring `v, ok := m[k]` on a Go map. -/
def mapFind? {β : Type} : List (Nat × β) → Nat → Option β
  | [], _ => none
  | (k0, v0) :: rest, k => if k0 = k then some v0 else mapFind? rest k

/-- Association-list assignment, mirroring `m[k] = v` on a Go map:
replace the value at an existing key, otherwise append the new entry. -/
def mapInsert {β : Type} : List (Nat × β) → Nat → β → List (Nat × β)
  | [], k, v => [(k, v)]
  | (k0, v0) :: rest, k, v =>
      if k0 = k then (k0, v) :: rest else (k0, v0) :: mapInsert rest k v

/-- Mirrors `m.transitions[id] = append(m.transitions[id], t)`. -/
def tmapAppend {α ε : Type} (tm : List (Nat × List (Edge α ε))) (k : Nat)
    (t : Edge α ε) : List (Nat × List (Edge α ε)) :=
  mapInsert tm k ((mapFind? tm k).getD [] ++ [t])

/-- All transitions registered in the machine, in map-entry order
(the order entries occur in the association list, each entry keeping
its registration order). -/
def registeredEdges {α ε : Type} (m : Machine α ε) : List (Edge α ε) :=
  ((m.transitions.getD []).map Prod.snd).flatten

/-- The error channel of `Machine.Update`: Go returns `ctx.Err()` on
cancellation, `errors.New("machine has no start state")` when neither
current nor start is set, and the guard's own error verbatim. -/
inductive UpdateErr (ε : Type) where
  | cancelled
  | noStartState
  | guardErr (e : ε)
deriving DecidableEq

/-- Lines 348-353 of `fsm/fsm.go` (shared with `Current`): the current
state, falling back to the start state when current was never stored. -/
def Machine.resolveCurr {α ε : Type} (m : Machine α ε) : Option GoState :=
  match m.curr with
  | some c => some c
  | none => m.start

/-- Mirrors `Machine.Current` in `fsm/fsm.go`. -/
def Machine.Current {α ε : Type} (m : Machine α ε) : Option GoState :=
  m.resolveCurr

/-- The evaluation loop of `Machine.Update` (lines 360-374 of `fsm/fsm.go`):
first transition whose guard errors aborts; first transition whose guard
succeeds stores its target (when non-nil) and reports a change. -/
def updateLoop {α ε : Type} (m : Machine α ε) (ctx : Bool) (value : α) :
    List (Edge α ε) → Machine α ε × Bool × Option (UpdateErr ε)
  | [] => (m, false, none)
  | t :: rest =>
    let r := t.Go ctx value
    match r.2 with
    | some e => (m, false, some (UpdateErr.guardErr e))
    | none =>
      if r.1 then
        match t.To with
        | some s => ({ m with curr := some s }, true, none)
        | none => (m, true, none)
      else updateLoop m ctx value rest

/-- Mirrors `Machine.Update` in `fsm/fsm.go`: cancellation check, current
resolution (error when neither current nor start is set), transition lookup
(no outgoing transitions is a no-op), then the evaluation loop. -/
def Machine.Update {α ε : Type} (m : Machine α ε) (ctx : Bool) (value : α) :
    Machine α ε × Bool × Option (UpdateErr ε) :=
  if ctx then (m, false, some UpdateErr.cancelled)
  else
    match m.resolveCurr with
    | none => (m, false, some UpdateErr.noStartState)
    | some curr =>
      match mapFind? (m.transitions.getD []) curr.Id with
      | none => (m, false, none)
      | some ts => updateLoop m ctx value ts

/-- Mirrors `Machine.AddTransition` in `fsm/fsm.go`: panics (`none`) when the
transition is missing a source or a target; when the transition map is still
nil, allocates it and stores the source as the start state; then appends the
transition under its source's id. -/
def Machine.AddTransition {α ε : Type} (m : Machine α ε) (t : Edge α ε) :
    Option (Machine α ε) :=
  match t.From with
  | none => none
  | some f =>
    match t.To with
    | none => none
    | some _ =>
      let m1 : Machine α ε :=
        match m.transitions with
        | none => { m with transitions := some [], start := some f }
        | some _ => m
      some { m1 with
        transitions := some (tmapAppend (m1.transitions.getD []) f.Id t) }

/-- The registration loop of `WithTransitions` (lines 76-79 of `fsm/fsm.go`):
`t.From().Id()` on a nil source aborts (`none`); otherwise the transition is
appended under its source's id, with no check on its target. -/
def wtLoop {α ε : Type} (m : Machine α ε) :
    List (Edge α ε) → Option (Machine α ε)
  | [] => some m
  | t :: rest =>
    match t.From with
    | none => none
    | some f =>
        wtLoop { m with
          transitions := some (tmapAppend (m.transitions.getD []) f.Id t) } rest

/-- Mirrors the `WithTransitions` option in `fsm/fsm.go` applied to a machine:
allocates the transition map when nil, stores the first transition's source
as the start state (`m.start.Store(transitions[0].From())`; a nil source
there makes `atomic.Value.Store` panic, hence `none`), then registers every
transition. -/
def Machine.WithTransitions {α ε : Type} (m : Machine α ε)
    (ts : List (Edge α ε)) : Option (Machine α ε) :=
  let m1 : Machine α ε :=
    match m.transitions with
    | none => { m with transitions := some [] }
    | some _ => m
  match ts with
  | [] => wtLoop m1 []
  | t :: _ =>
    match t.From with
    | none => none
    | some f => wtLoop { m1 with start := some f } ts

/-- Mirrors `NewMachine(WithTransitions(ts...))` in `fsm/fsm.go`. -/
def NewMachine {α ε : Type} (ts : List (Edge α ε)) : Option (Machine α ε) :=
  Machine.empty.WithTransitions ts

/-- Mirrors `Machine.IsEndState` in `fsm/fsm.go`: when the end-state map is
nil it is initialized empty and `false` is returned; otherwise the raw
`curr` field is read with **no** fallback to start, so a machine whose
current state was never stored calls `Id()` on a nil interface — a panic,
modelled by a `none` result. -/
def Machine.IsEndState {α ε : Type} (m : Machine α ε) :
    Machine α ε × Option Bool :=
  match m.endStates with
  | none => ({ m with endStates := some [] }, some false)
  | some es =>
    match m.curr with
    | none => (m, none)
    | some c => (m, some (mapFind? es c.Id).isSome)

/-- The `Filter` step of `SetEndStates` over one map entry: the predicate
evaluates `tr.To().Name()` on every transition of the entry, so a nil
target anywhere aborts (`none`); the matching transitions' targets are kept. -/
def seFilter {α ε : Type} (names : List String) :
    List (Edge α ε) → Option (List GoState)
  | [] => some []
  | t :: rest =>
    match t.To with
    | none => none
    | some s =>
        (seFilter names rest).map
          (fun r => if names.contains s.Name then s :: r else r)

/-- The `Each` step of `SetEndStates`: record each matching target in the
end-state map and its name among the valid names. -/
def seApply (acc : List (Nat × GoState) × List String) (targets : List GoState) :
    List (Nat × GoState) × List String :=
  targets.foldl
    (fun p s =>
      (mapInsert p.1 s.Id s,
       if p.2.contains s.Name then p.2 else p.2 ++ [s.Name]))
    acc

/-- The scan of `SetEndStates` over all map entries (lines 183-191 of
`fsm/fsm.go`). -/
def seScan {α ε : Type} (names : List String) :
    List (Nat × List (Edge α ε)) → List (Nat × GoState) × List String →
      Option (List (Nat × GoState) × List String)
  | [], acc => some acc
  | (_, es) :: rest, acc =>
    match seFilter names es with
    | none => none
    | some targets => seScan names rest (seApply acc targets)

/-- Mirrors `Machine.SetEndStates` in `fsm/fsm.go`: ensure the end-state map
is allocated, mark every transition target whose name is in `names` (also
collecting the set of matched names), then `IfEach` over `names` reports the
first requested name that matched nothing. -/
def Machine.SetEndStates {α ε : Type} (m : Machine α ε) (names : List String) :
    Option (Machine α ε × Option String) :=
  match seScan names (m.transitions.getD []) (m.endStates.getD [], []) with
  | none => none
  | some (es, validNames) =>
    let m1 : Machine α ε := { m with endStates := some es }
    match names.find? (fun n => !validNames.contains n) with
    | some n => some (m1, some ("invalid state: \x27" ++ n ++ "\x27"))
    | none => some (m1, none)

/-- The loop of `Machine.Validate` (lines 278-290 of `fsm/fsm.go`): error on
the first transition missing a source or a target (naming its description),
otherwise collect the id-keyed state map and the list of state names. -/
def validateLoop {α ε : Type} :
    List (Edge α ε) → List (Nat × GoState) → List String →
      Except String (List (Nat × GoState) × List String)
  | [], sm, ns => Except.ok (sm, ns)
  | t :: rest, sm, ns =>
    match t.From with
    | none =>
        Except.error ("transition \x27" ++ t.Description ++ "\x27 has no from state")
    | some f =>
      match t.To with
      | none =>
          Except.error ("transition \x27" ++ t.Description ++ "\x27 has no to state")
      | some s =>
          validateLoop rest (mapInsert (mapInsert sm f.Id f) s.Id s)
            (ns ++ [f.Name, s.Name])

/-- Mirrors `Machine.Validate` in `fsm/fsm.go`: no start state is an error;
then the loop above; finally the count of distinct state names
(`slice.String(stateNames).Unique()`, modelled by `List.dedup` — only its
length is used) must equal the size of the id-keyed state map. -/
def Machine.Validate {α ε : Type} (m : Machine α ε) : Option String :=
  match m.start with
  | none => some "no start state set"
  | some _ =>
    match validateLoop (registeredEdges m) [] [] with
    | Except.error msg => some msg
    | Except.ok (sm, ns) =>
        if ns.dedup.length ≠ sm.length then
          some "invalid: all state names must be unique"
        else none

/-! Spec-side vocabulary used to state the claims. -/

/-- Every guard in the list reports no error on this context and input. -/
def guardsErrFree {α ε : Type} (ts : List (Edge α ε)) (ctx : Bool) (v : α) : Bool :=
  ts.all (fun t => ((t.Go ctx v).2).isNone)

/-- Every guard outgoing from the resolved current state reports no error. -/
def Machine.currGuardsErrFree {α ε : Type} (m : Machine α ε) (v : α) : Bool :=
  match m.resolveCurr with
  | none => true
  | some c => guardsErrFree ((mapFind? (m.transitions.getD []) c.Id).getD []) false v

/-- Every transition registered in the machine has its target set
(the spec's invariant for transitions usable by a machine). -/
def targetsSet {α ε : Type} (m : Machine α ε) : Bool :=
  (registeredEdges m).all (fun t => t.To.isSome)

/-- Some registered transition's target carries this name. -/
def nameMatched {α ε : Type} (m : Machine α ε) (n : String) : Bool :=
  (registeredEdges m).any (fun t =>
    match t.To with
    | some s => s.Name == n
    | none => false)

/-- The state names mentioned by a list of transitions (source then target,
per transition, skipping unset ends). -/
def edgeNames {α ε : Type} (edges : List (Edge α ε)) : List String :=
  (edges.map (fun t =>
    t.From.elim [] (fun f => [f.Name]) ++ t.To.elim [] (fun s => [s.Name]))).flatten

/-- The state identifiers mentioned by a list of transitions. -/
def edgeIds {α ε : Type} (edges : List (Edge α ε)) : List Nat :=
  (edges.map (fun t =>
    t.From.elim [] (fun f => [f.Id]) ++ t.To.elim [] (fun s => [s.Id]))).flatten

/-- The id-keyed entries inserted into `Validate`'s state map. -/
def edgePairs {α ε : Type} (edges : List (Edge α ε)) : List (Nat × GoState) :=
  (edges.map (fun t =>
    t.From.elim [] (fun f => [(f.Id, f)]) ++ t.To.elim [] (fun s => [(s.Id, s)]))).flatten

/-- Fold a list of entries into an association map. -/
def insertPairs (sm : List (Nat × GoState)) (ps : List (Nat × GoState)) :
    List (Nat × GoState) :=
  ps.foldl (fun acc p => mapInsert acc p.1 p.2) sm

/-- The error message `Validate` produces for a transition missing an end
(the source is checked before the target). -/
def incompleteMsg {α ε : Type} (t : Edge α ε) : String :=
  match t.From with
  | none => "transition \x27" ++ t.Description ++ "\x27 has no from state"
  | some _ => "transition \x27" ++ t.Description ++ "\x27 has no to state"

/-- Count of distinct state names across all registered transitions. -/
def distinctNameCount {α ε : Type} (m : Machine α ε) : Nat :=
  (edgeNames (registeredEdges m)).dedup.length

/-- Count of distinct state identifiers across all registered transitions. -/
def distinctIdCount {α ε : Type} (m : Machine α ε) : Nat :=
  (edgeIds (registeredEdges m)).dedup.length

/-- The scan of `SetEndStates` restated without the panic channel, for
machines all of whose transitions have targets: per map entry, apply the
matching targets to the accumulator. -/
def seScanPure {α ε : Type} (names : List String)
    (tm : List (Nat × List (Edge α ε)))
    (acc : List (Nat × GoState) × List String) :
    List (Nat × GoState) × List String :=
  tm.foldl
    (fun a p =>
      seApply a ((p.2.filterMap Edge.To).filter (fun s => names.contains s.Name)))
    acc

/-! Concrete fixtures (inputs `Nat`, guard errors `String`), used by the
closed evaluation theorems below. -/

/-- Fixture state. -/
def stA : GoState := ⟨1, "A"⟩

/-- Fixture state. -/
def stB : GoState := ⟨2, "B"⟩

/-- Fixture state. -/
def stC : GoState := ⟨3, "C"⟩

/-- Fixture transition A → B firing on input 1. -/
def eAB : Edge Nat String := ⟨10, "v = 1", some stA, some stB, fun _ v => (v == 1, none)⟩

/-- Fixture transition A → C firing on input 2. -/
def eAC : Edge Nat String := ⟨11, "v = 2", some stA, some stC, fun _ v => (v == 2, none)⟩

/-- Fixture transition out of A whose guard always fails with an error. -/
def eBoom : Edge Nat String := ⟨12, "boom", some stA, some stB, fun _ _ => (false, some "boom")⟩

/-- Fixture transition out of A with its target still unset. -/
def eNoTarget : Edge Nat String := ⟨14, "half built", some stA, none, fun _ _ => (true, none)⟩

/-- Fixture machine: start A, current never stored, transitions A → B and
A → C registered under A's id. -/
def mUpd : Machine Nat String :=
  { curr := none, start := some stA, endStates := none,
    transitions := some [(1, [eAB, eAC])] }

/-- Fixture machine whose first outgoing transition errors and whose second
would match. -/
def mBoom : Machine Nat String :=
  { curr := none, start := some stA, endStates := none,
    transitions := some [(1, [eBoom, eAB])] }

/-- Fixture machine with end states configured (B is an end state) but the
current state never stored — exactly what `NewMachine(WithTransitions(A→B))`
followed by `SetEndStates("B")` produces. -/
def mEndNoCurr : Machine Nat String :=
  { curr := none, start := some stA, endStates := some [(2, stB)],
    transitions := some [(1, [eAB])] }

end Fsm

namespace Switchboard

/-- `capacity` in `switchboard/register.go`: words in a register. -/
def capacity : Nat := 64

/-- `wordSize` in `switchboard/register.go`: bits per word. -/
def wordSize : Nat := 64

/-- `maxReg = capacity * wordSize` in `switchboard/register.go`. -/
def maxReg : Nat := capacity * wordSize

/-- Mirrors `offset` in `switchboard/register.go`: the overflow guard panics
(`none`) when `idx > maxReg`, otherwise yields the word index and the bit
offset inside that word. -/
def offset (idx : Nat) : Option (Nat × Nat) :=
  if idx > maxReg then none else some (idx / wordSize, idx % wordSize)

/-- Mirrors `shift` in `switchboard/register.go`: `uint64(1 << offs)`. -/
def shift (offs : Nat) : Nat := (1 <<< offs) % 2 ^ 64

/-- A register value is a list of words; the Go type is the fixed-size array
`[64]uint64`, so every register built by the package has length `capacity`
and an in-code array access `r[idx]` with `idx ≥ capacity` is an
index-out-of-range abort, modelled by `List.get?` returning `none`. -/
def registerZero : List Nat := List.replicate capacity 0

/-- The loop of `registerClose` in `switchboard/register.go`: set each index's
bit, collecting the indices whose bit was not already set. -/
def registerCloseGo (r : List Nat) (out : List Nat) :
    List Nat → Option (List Nat × List Nat)
  | [] => some (r, out)
  | i :: rest =>
    match offset i with
    | none => none
    | some (idx, offs) =>
      match r.get? idx with
      | none => none
      | some w =>
          registerCloseGo (r.set idx (w ||| shift offs))
            (if w &&& shift offs ≠ shift offs then out ++ [i] else out) rest

/-- Mirrors `registerClose` in `switchboard/register.go`. -/
def registerClose (r : List Nat) (indices : List Nat) :
    Option (List Nat × List Nat) :=
  registerCloseGo r [] indices

/-- Mirrors `registerClosed` in `switchboard/register.go`. -/
def registerClosed (r : List Nat) (index : Nat) : Option Bool :=
  match offset index with
  | none => none
  | some (idx, offs) =>
    match r.get? idx with
    | none => none
    | some w => some (w &&& shift offs == shift offs)

/-- The loop of `registerOpen` in `switchboard/register.go`: clear each
index's bit (`&^=`), collecting the indices whose bit was set. -/
def registerOpenGo (r : List Nat) (out : List Nat) :
    List Nat → Option (List Nat × List Nat)
  | [] => some (r, out)
  | i :: rest =>
    match offset i with
    | none => none
    | some (idx, offs) =>
      match r.get? idx with
      | none => none
      | some w =>
          registerOpenGo (r.set idx (w &&& ((2 ^ 64 - 1) ^^^ shift offs)))
            (if w &&& shift offs = shift offs then out ++ [i] else out) rest

/-- Mirrors `registerOpen` in `switchboard/register.go`. -/
def registerOpen (r : List Nat) (indices : List Nat) :
    Option (List Nat × List Nat) :=
  registerOpenGo r [] indices

/-- The loop of `registerToggle` in `switchboard/register.go`: flip each
index's bit, collecting newly closed and newly opened indices. -/
def registerToggleGo (r : List Nat) (closed opened : List Nat) :
    List Nat → Option (List Nat × List Nat × List Nat)
  | [] => some (r, closed, opened)
  | i :: rest =>
    match offset i with
    | none => none
    | some (idx, offs) =>
      match r.get? idx with
      | none => none
      | some w =>
          if w &&& shift offs ≠ shift offs then
            registerToggleGo (r.set idx (w ||| shift offs))
              (closed ++ [i]) opened rest
          else
            registerToggleGo (r.set idx (w &&& ((2 ^ 64 - 1) ^^^ shift offs)))
              closed (opened ++ [i]) rest

/-- Mirrors `registerToggle` in `switchboard/register.go`. -/
def registerToggle (r : List Nat) (indices : List Nat) :
    Option (List Nat × List Nat × List Nat) :=
  registerToggleGo r [] [] indices

end Switchboard

namespace Fsm

/-- C7: when the supplied context is already cancelled, `Update` returns
`(false, CancelledError)` before evaluating any transition guard (the result
is this fixed value for every machine, so no guard can influence it), and
the machine — hence `Current()` — is unchanged. -/
theorem Update_cancelled {α ε : Type} (m : Machine α ε) (v : α) :
    m.Update true v = (m, false, some UpdateErr.cancelled) := rfl

/-- C3 (code evaluated at the failing input): on a machine with end states
configured whose current state was never explicitly stored, `Current()`
falls back to the start state, but `IsEndState` performs no such fallback:
it calls `Id()` on the nil current-state interface and panics (`none`)
instead of returning the claimed membership answer (`false` here, since the
start state A is not an end state). -/
theorem IsEndState_nil_current_aborts :
    mEndNoCurr.Current = some stA ∧ mEndNoCurr.IsEndState = (mEndNoCurr, none) :=
  ⟨rfl, rfl⟩

/-- C9 (code evaluated at the boundary): the overflow guard in `offset` uses
`idx > maxReg`, so index 4096 — the first index beyond the 4096-flag
capacity 0..4095 — passes the guard and yields word index 64, out of bounds
for the 64-word register: `registerToggle` and `registerClosed` on it abort
with an index-out-of-range (`none` from the word access) rather than being
rejected by the guard, while 4095 is in bounds and 4097 is rejected. -/
theorem offset_4096_escapes_guard :
    Switchboard.offset 4095 = some (63, 63) ∧
    Switchboard.offset 4096 = some (64, 0) ∧
    Switchboard.offset 4097 = none ∧
    Switchboard.registerToggle Switchboard.registerZero [4096] = none ∧
    Switchboard.registerClosed Switchboard.registerZero 4096 = none :=
  ⟨rfl, rfl, rfl, rfl, rfl⟩

/-- C4 (counterexample): bulk registration via `NewMachine`/`WithTransitions`
performs no target check — a transition whose target is unset is silently
registered into the machine's transition map, with no abort. -/
theorem WithTransitions_registers_nil_target :
    (Machine.empty.WithTransitions [eNoTarget]).map registeredEdges =
      some [eNoTarget] := rfl

/-- Helper: `wtLoop` aborts exactly when some transition's source is unset. -/
theorem wtLoop_isSome {α ε : Type} (ts : List (Edge α ε)) :
    ∀ m : Machine α ε, (wtLoop m ts).isSome = ts.all (fun t => t.From.isSome) := by
  induction ts with
  | nil => intro m; rfl
  | cons t rest ih =>
    intro m
    cases hf : t.From with
    | none => simp [wtLoop, hf]
    | some f => simp [wtLoop, hf, ih]

/-- C4 (amended): `AddTransition` aborts (panics) exactly when the transition
is missing a source or a target, while `WithTransitions` aborts exactly when
some transition's source is unset — a missing target is never checked on the
bulk path. -/
theorem registration_abort_characterization (α ε : Type) :
    (∀ (m : Machine α ε) (t : Edge α ε),
        (m.AddTransition t).isSome = (t.From.isSome && t.To.isSome)) ∧
    (∀ (m : Machine α ε) (ts : List (Edge α ε)),
        (m.WithTransitions ts).isSome = ts.all (fun t => t.From.isSome)) := by
  constructor
  · intro m t
    cases hf : t.From with
    | none => simp [Machine.AddTransition, hf]
    | some f =>
      cases ht : t.To with
      | none => simp [Machine.AddTransition, hf, ht]
      | some s => simp [Machine.AddTransition, hf, ht]
  · intro m ts
    cases ts with
    | nil => rfl
    | cons t rest =>
      cases hf : t.From with
      | none => simp [Machine.WithTransitions, hf]
      | some f => simp [Machine.WithTransitions, hf, wtLoop, wtLoop_isSome]

/-- C6 (counterexample): after an empty `WithTransitions` option the
transition map is allocated but empty — no transition was ever added — yet
the first transition ever added via `AddTransition` does not set the start
state (it stays unset instead of becoming the transition's source A). -/
theorem AddTransition_after_empty_bulk_keeps_start_unset :
    (Machine.empty.WithTransitions ([] : List (Edge Nat String))).map
        registeredEdges = some [] ∧
    ((Machine.empty.WithTransitions ([] : List (Edge Nat String))).bind
        (fun mE => mE.AddTransition eAB)).map Machine.start = some none :=
  ⟨rfl, rfl⟩

/-- C6 (amended): `AddTransition` sets the start state to the transition's
source exactly when the internal transition map was never allocated (no
prior `AddTransition` and no prior `WithTransitions` option, even an empty
one); otherwise the start state is left as it was. -/
theorem AddTransition_sets_start_iff_map_nil {α ε : Type} (m : Machine α ε)
    (t : Edge α ε) (f s : GoState) (hf : t.From = some f) (ht : t.To = some s) :
    ∃ m1, m.AddTransition t = some m1 ∧
      m1.start = (match m.transitions with
                  | none => some f
                  | some _ => m.start) := by
  cases htr : m.transitions with
  | none =>
    refine ⟨{ m with transitions := some (tmapAppend [] f.Id t), start := some f },
      ?_, ?_⟩
    · simp [Machine.AddTransition, hf, ht, htr]
    · simp [htr]
  | some tm =>
    refine ⟨{ m with transitions := some (tmapAppend tm f.Id t) }, ?_, ?_⟩
    · simp [Machine.AddTransition, hf, ht, htr]
    · simp [htr]

/-- Witness for C6's amended theorem: adding A → B to the empty machine
(nil transition map) sets start to A. -/
theorem AddTransition_sets_start_iff_map_nil_witness :
    ∃ m1, (Machine.empty : Machine Nat String).AddTransition eAB = some m1 ∧
      m1.start = some stA :=
  AddTransition_sets_start_iff_map_nil Machine.empty eAB stA stB rfl rfl

/-- Helper: membership through `mapFind?`. -/
theorem mapFind?_mem {β : Type} (l : List (Nat × β)) (k : Nat) (b : β)
    (h : mapFind? l k = some b) : b ∈ l.map Prod.snd := by
  induction l with
  | nil => simp [mapFind?] at h
  | cons p rest ih =>
    by_cases hk : p.1 = k
    · obtain ⟨k0, v0⟩ := p
      simp only [mapFind?, if_pos hk] at h
      injection h with h
      subst h
      simp
    · obtain ⟨k0, v0⟩ := p
      simp only [mapFind?, if_neg hk] at h
      simp [ih h]

/-- Helper: members of the transition list `Update` looks up are registered
transitions of the machine. -/
theorem mem_registeredEdges_of_lookup {α ε : Type} (m : Machine α ε) (k : Nat)
    (ts : List (Edge α ε)) (h : mapFind? (m.transitions.getD []) k = some ts) :
    ∀ t ∈ ts, t ∈ registeredEdges m := by
  intro t ht
  have hts := mapFind?_mem _ _ _ h
  exact List.mem_flatten.mpr ⟨ts, hts, ht⟩

/-- Helper: when no guard in the list errors, the evaluation loop moves to
the target of the first matching transition (storing it only when set) and
leaves the machine untouched when no guard matches. -/
theorem updateLoop_eq {α ε : Type} (m : Machine α ε) (v : α)
    (ts : List (Edge α ε)) (h : ∀ t ∈ ts, (t.Go false v).2 = none) :
    updateLoop m false v ts =
      match ts.find? (fun t => (t.Go false v).1) with
      | none => (m, false, none)
      | some t =>
        match t.To with
        | some s => ({ m with curr := some s }, true, none)
        | none => (m, true, none) := by
  induction ts with
  | nil => rfl
  | cons t rest ih =>
    have h1 : (t.Go false v).2 = none := h t (List.mem_cons_self t rest)
    have hrest : ∀ t1 ∈ rest, (t1.Go false v).2 = none :=
      fun t1 ht1 => h t1 (List.mem_cons_of_mem t ht1)
    cases hb : (t.Go false v).1 with
    | true => simp [updateLoop, h1, hb, List.find?_cons]
    | false => simp [updateLoop, h1, hb, List.find?_cons, ih hrest]

/-- C1: for a non-cancelled update on a machine whose transitions all have
targets and whose relevant guards are error-free, `Update` resolves the
current state (falling back to start; configuration error when neither is
set), is a `(false, nil)` no-op when the resolved state has no registered
outgoing transitions, moves to the target of the first transition (in
registration order) whose guard matches and returns `(true, nil)`, and
returns `(false, nil)` with the machine unchanged when no guard matches. -/
theorem Update_first_match {α ε : Type} (m : Machine α ε) (v : α)
    (hT : targetsSet m = true) (hE : m.currGuardsErrFree v = true) :
    match m.resolveCurr with
    | none => m.Update false v = (m, false, some UpdateErr.noStartState)
    | some c =>
      match mapFind? (m.transitions.getD []) c.Id with
      | none => m.Update false v = (m, false, none)
      | some ts =>
        match ts.find? (fun t => (t.Go false v).1) with
        | none => m.Update false v = (m, false, none)
        | some t => ∃ s, t.To = some s ∧
            m.Update false v = ({ m with curr := some s }, true, none) := by
  split
  · rename_i hc
    simp [Machine.Update, hc]
  · rename_i c hc
    split
    · rename_i hts
      simp [Machine.Update, hc, hts]
    · rename_i ts hts
      have hE1 : ∀ t ∈ ts, (t.Go false v).2 = none := by
        intro t ht
        have h2 := hE
        unfold Machine.currGuardsErrFree at h2
        rw [hc] at h2
        simp only [hts, Option.getD_some, guardsErrFree, List.all_eq_true] at h2
        exact Option.isNone_iff_eq_none.mp (h2 t ht)
      have hloop := updateLoop_eq m v ts hE1
      split
      · rename_i hfind
        rw [hfind] at hloop
        simp [Machine.Update, hc, hts, hloop]
      · rename_i t hfind
        rw [hfind] at hloop
        have htmem : t ∈ ts := List.mem_of_find?_eq_some hfind
        have htreg : t ∈ registeredEdges m :=
          mem_registeredEdges_of_lookup m c.Id ts hts t htmem
        have hTo : t.To.isSome := by
          have h3 := hT
          unfold targetsSet at h3
          rw [List.all_eq_true] at h3
          exact h3 t htreg
        obtain ⟨s, hs⟩ := Option.isSome_iff_exists.mp hTo
        refine ⟨s, hs, ?_⟩
        have hloop2 : updateLoop m false v ts =
            match t.To with
            | some s2 => ({ m with curr := some s2 }, true, none)
            | none => (m, true, none) := hloop
        rw [hs] at hloop2
        have hloop3 : updateLoop m false v ts =
            ({ m with curr := some s }, true, none) := by rw [hloop2]
        simp [Machine.Update, hc, hts, hloop3]

/-- Witness for C1: on the fixture machine (start A, transitions A → B on 1
and A → C on 2, no stored current state) the input 1 moves the machine to B
with result `(true, nil)`. -/
theorem Update_first_match_witness :
    ∃ s, eAB.To = some s ∧
      mUpd.Update false 1 = ({ mUpd with curr := some s }, true, none) :=
  Update_first_match mUpd 1 rfl rfl

/-- Helper: the evaluation loop skips a block of non-matching, error-free
transitions. -/
theorem updateLoop_append_noMatch {α ε : Type} (m : Machine α ε) (v : α)
    (pre rest : List (Edge α ε)) (hpre : ∀ t1 ∈ pre, t1.Go false v = (false, none)) :
    updateLoop m false v (pre ++ rest) = updateLoop m false v rest := by
  induction pre with
  | nil => rfl
  | cons t1 pre1 ih =>
    have h1 : t1.Go false v = (false, none) := hpre t1 (List.mem_cons_self t1 pre1)
    have h2 : ∀ t2 ∈ pre1, t2.Go false v = (false, none) :=
      fun t2 ht2 => hpre t2 (List.mem_cons_of_mem t1 ht2)
    simp [updateLoop, h1, ih h2]

/-- C2: when the transitions evaluated before `t` neither match nor error
and `t`'s guard returns an error, `Update` stops at `t`, returns
`(false, err)` with exactly the guard's error, and leaves the machine — in
particular its current state — unchanged (the transitions after `t` are
irrelevant to the result). -/
theorem Update_guard_error {α ε : Type} (m : Machine α ε) (v : α) (c : GoState)
    (pre post : List (Edge α ε)) (t : Edge α ε) (b : Bool) (e : ε)
    (hc : m.resolveCurr = some c)
    (hts : mapFind? (m.transitions.getD []) c.Id = some (pre ++ t :: post))
    (hpre : ∀ t1 ∈ pre, t1.Go false v = (false, none))
    (ht : t.Go false v = (b, some e)) :
    m.Update false v = (m, false, some (UpdateErr.guardErr e)) := by
  have hloop := updateLoop_append_noMatch m v pre (t :: post) hpre
  simp [Machine.Update, hc, hts, hloop, updateLoop, ht]

/-- Witness for C2: on the fixture machine whose first outgoing transition
errors with "boom" and whose second transition would match the input,
`Update` returns the guard's error and the machine is unchanged. -/
theorem Update_guard_error_witness :
    mBoom.Update false 1 = (mBoom, false, some (UpdateErr.guardErr "boom")) :=
  Update_guard_error mBoom 1 stA [] [eAB] eBoom false "boom" rfl rfl
    (fun _ h => nomatch h) rfl

/-- Helper: `List.contains` is membership (for strings). -/
theorem contains_eq_mem (l : List String) (a : String) :
    l.contains a = true ↔ a ∈ l := by
  simp

/-- Helper: looking up the freshly inserted key succeeds. -/
theorem mapFind?_mapInsert_self {β : Type} (l : List (Nat × β)) (k : Nat) (v : β) :
    mapFind? (mapInsert l k v) k = some v := by
  induction l with
  | nil => simp [mapInsert, mapFind?]
  | cons p rest ih =>
    obtain ⟨k0, v0⟩ := p
    by_cases hk : k0 = k
    · simp [mapInsert, mapFind?, hk]
    · simp [mapInsert, mapFind?, hk, ih]

/-- Helper: insertion never hides an existing key. -/
theorem mapFind?_mapInsert_isSome {β : Type} (l : List (Nat × β)) (k k1 : Nat)
    (v : β) (h : (mapFind? l k1).isSome = true) :
    (mapFind? (mapInsert l k v) k1).isSome = true := by
  induction l with
  | nil => simp [mapFind?] at h
  | cons p rest ih =>
    obtain ⟨k0, v0⟩ := p
    by_cases hk1 : k0 = k1
    · subst hk1
      by_cases hk : k0 = k
      · subst hk
        simp [mapInsert, mapFind?]
      · simp [mapInsert, mapFind?, hk]
    · simp only [mapFind?, if_neg hk1] at h
      by_cases hk : k0 = k
      · subst hk
        simp [mapInsert, mapFind?, hk1, h]
      · simp [mapInsert, mapFind?, hk, hk1, ih h]

/-- Helper: `seApply` preserves end-state entries. -/
theorem seApply_es_mono (ts : List GoState) :
    ∀ (acc : List (Nat × GoState) × List String) (k : Nat),
      (mapFind? acc.1 k).isSome = true →
      (mapFind? (seApply acc ts).1 k).isSome = true := by
  induction ts with
  | nil => intro acc k h; exact h
  | cons s rest ih =>
    intro acc k h
    simp only [seApply, List.foldl_cons] at *
    exact ih _ k (mapFind?_mapInsert_isSome _ _ _ _ h)

/-- Helper: `seApply` preserves valid names. -/
theorem seApply_vn_mono (ts : List GoState) :
    ∀ (acc : List (Nat × GoState) × List String) (n : String),
      n ∈ acc.2 → n ∈ (seApply acc ts).2 := by
  induction ts with
  | nil => intro acc n h; exact h
  | cons s rest ih =>
    intro acc n h
    simp only [seApply, List.foldl_cons] at *
    refine ih _ n ?_
    by_cases hc : s.Name ∈ acc.2 <;> simp [hc, h]

/-- Helper: `seApply` records every applied target in the end-state map. -/
theorem seApply_es_mem (ts : List GoState) :
    ∀ (acc : List (Nat × GoState) × List String) (s : GoState), s ∈ ts →
      (mapFind? (seApply acc ts).1 s.Id).isSome = true := by
  induction ts with
  | nil => intro acc s h; exact absurd h (List.not_mem_nil s)
  | cons s0 rest ih =>
    intro acc s h
    rcases List.mem_cons.mp h with rfl | h1
    · simp only [seApply, List.foldl_cons]
      refine seApply_es_mono rest _ s.Id ?_
      simp [mapFind?_mapInsert_self]
    · simp only [seApply, List.foldl_cons]
      exact ih _ s h1

/-- Helper: `seApply` records every applied target's name as valid. -/
theorem seApply_vn_mem (ts : List GoState) :
    ∀ (acc : List (Nat × GoState) × List String) (s : GoState), s ∈ ts →
      s.Name ∈ (seApply acc ts).2 := by
  induction ts with
  | nil => intro acc s h; exact absurd h (List.not_mem_nil s)
  | cons s0 rest ih =>
    intro acc s h
    rcases List.mem_cons.mp h with rfl | h1
    · simp only [seApply, List.foldl_cons]
      refine seApply_vn_mono rest _ s.Name ?_
      by_cases hc : s.Name ∈ acc.2 <;> simp [hc]
    · simp only [seApply, List.foldl_cons]
      exact ih _ s h1

/-- Helper: any name valid after `seApply` was valid before or belongs to an
applied target. -/
theorem seApply_vn_sub (ts : List GoState) :
    ∀ (acc : List (Nat × GoState) × List String) (n : String),
      n ∈ (seApply acc ts).2 → n ∈ acc.2 ∨ ∃ s ∈ ts, s.Name = n := by
  induction ts with
  | nil => intro acc n h; exact Or.inl h
  | cons s0 rest ih =>
    intro acc n h
    simp only [seApply, List.foldl_cons] at h
    rcases ih _ n h with h1 | ⟨s, hs, rfl⟩
    · by_cases hc : s0.Name ∈ acc.2
      · exact Or.inl (by simpa [hc] using h1)
      · rcases (by simpa [hc] using h1 : n ∈ acc.2 ∨ n = s0.Name) with h2 | h2
        · exact Or.inl h2
        · exact Or.inr ⟨s0, List.mem_cons_self s0 rest, h2.symm⟩
    · exact Or.inr ⟨s, List.mem_cons_of_mem s0 hs, rfl⟩

/-- Helper: under set targets, the `Filter` step of `SetEndStates` never
panics and keeps exactly the targets whose name is requested. -/
theorem seFilter_eq {α ε : Type} (names : List String) (es : List (Edge α ε))
    (h : ∀ t ∈ es, t.To.isSome = true) :
    seFilter names es =
      some ((es.filterMap Edge.To).filter (fun s => names.contains s.Name)) := by
  induction es with
  | nil => rfl
  | cons t rest ih =>
    have hTo : t.To.isSome = true := h t (List.mem_cons_self t rest)
    obtain ⟨s, hs⟩ := Option.isSome_iff_exists.mp hTo
    have hrest : ∀ t1 ∈ rest, t1.To.isSome = true :=
      fun t1 ht1 => h t1 (List.mem_cons_of_mem t ht1)
    by_cases hc : names.contains s.Name
    · simp [seFilter, hs, ih hrest, List.filterMap_cons, List.filter_cons, hc]
    · simp [seFilter, hs, ih hrest, List.filterMap_cons, List.filter_cons, hc]

/-- Helper: under set targets, the scan of `SetEndStates` never panics and
equals its pure restatement. -/
theorem seScan_eq_pure {α ε : Type} (names : List String)
    (tm : List (Nat × List (Edge α ε)))
    (htm : ∀ p ∈ tm, ∀ t ∈ p.2, t.To.isSome = true) :
    ∀ acc, seScan names tm acc = some (seScanPure names tm acc) := by
  induction tm with
  | nil => intro acc; rfl
  | cons p rest ih =>
    intro acc
    have hp : ∀ t ∈ p.2, t.To.isSome = true := htm p (List.mem_cons_self p rest)
    have hrest : ∀ q ∈ rest, ∀ t ∈ q.2, t.To.isSome = true :=
      fun q hq => htm q (List.mem_cons_of_mem p hq)
    obtain ⟨k, es⟩ := p
    simp only [seScan, seFilter_eq names es hp, seScanPure, List.foldl_cons]
    exact ih hrest _

/-- Helper: the scan preserves end-state entries. -/
theorem seScanPure_es_mono {α ε : Type} (names : List String)
    (tm : List (Nat × List (Edge α ε))) :
    ∀ acc k, (mapFind? acc.1 k).isSome = true →
      (mapFind? (seScanPure names tm acc).1 k).isSome = true := by
  induction tm with
  | nil => intro acc k h; exact h
  | cons p rest ih =>
    intro acc k h
    simp only [seScanPure, List.foldl_cons]
    exact ih _ k (seApply_es_mono _ _ k h)

/-- Helper: the scan preserves valid names. -/
theorem seScanPure_vn_mono {α ε : Type} (names : List String)
    (tm : List (Nat × List (Edge α ε))) :
    ∀ acc n, n ∈ acc.2 → n ∈ (seScanPure names tm acc).2 := by
  induction tm with
  | nil => intro acc n h; exact h
  | cons p rest ih =>
    intro acc n h
    simp only [seScanPure, List.foldl_cons]
    exact ih _ n (seApply_vn_mono _ _ n h)

/-- Helper: the scan marks every requested transition target (end-state
entry plus valid name). -/
theorem seScanPure_marks {α ε : Type} (names : List String)
    (tm : List (Nat × List (Edge α ε))) :
    ∀ acc (p : Nat × List (Edge α ε)) (t : Edge α ε) (s : GoState),
      p ∈ tm → t ∈ p.2 → t.To = some s → names.contains s.Name = true →
      (mapFind? (seScanPure names tm acc).1 s.Id).isSome = true ∧
        s.Name ∈ (seScanPure names tm acc).2 := by
  induction tm with
  | nil => intro acc p t s hp; exact absurd hp (List.not_mem_nil p)
  | cons q rest ih =>
    intro acc p t s hp ht hTo hname
    rcases List.mem_cons.mp hp with rfl | hp1
    · simp only [seScanPure, List.foldl_cons]
      have hsT : s ∈ (p.2.filterMap Edge.To).filter
          (fun s1 => names.contains s1.Name) :=
        List.mem_filter.mpr ⟨List.mem_filterMap.mpr ⟨t, ht, hTo⟩, hname⟩
      constructor
      · exact seScanPure_es_mono names rest _ s.Id (seApply_es_mem _ _ s hsT)
      · exact seScanPure_vn_mono names rest _ s.Name (seApply_vn_mem _ _ s hsT)
    · simp only [seScanPure, List.foldl_cons]
      exact ih _ p t s hp1 ht hTo hname

/-- Helper: every name valid after the scan is the name of some registered
transition target (starting from no valid names). -/
theorem seScanPure_vn_sub {α ε : Type} (names : List String)
    (tm : List (Nat × List (Edge α ε))) :
    ∀ acc n, n ∈ (seScanPure names tm acc).2 →
      n ∈ acc.2 ∨ ∃ p ∈ tm, ∃ t ∈ p.2, ∃ s, t.To = some s ∧ s.Name = n := by
  induction tm with
  | nil => intro acc n h; exact Or.inl h
  | cons q rest ih =>
    intro acc n h
    simp only [seScanPure, List.foldl_cons] at h
    rcases ih _ n h with h1 | ⟨p, hp, t, ht, s, hTo, rfl⟩
    · rcases seApply_vn_sub _ _ n h1 with h2 | ⟨s, hs, rfl⟩
      · exact Or.inl h2
      · obtain ⟨hsf, -⟩ := List.mem_filter.mp hs
        obtain ⟨t, ht, hTo⟩ := List.mem_filterMap.mp hsf
        exact Or.inr ⟨q, List.mem_cons_self q rest, t, ht, s, hTo, rfl⟩
    · exact Or.inr ⟨p, List.mem_cons_of_mem q hp, t, ht, s, hTo, rfl⟩

/-- Helper: a registered transition lies in some entry of the transition
map. -/
theorem mem_entries_of_registeredEdges {α ε : Type} (m : Machine α ε)
    (t : Edge α ε) (h : t ∈ registeredEdges m) :
    ∃ p ∈ m.transitions.getD [], t ∈ p.2 := by
  unfold registeredEdges at h
  obtain ⟨l, hl, htl⟩ := List.mem_flatten.mp h
  obtain ⟨p, hp, rfl⟩ := List.mem_map.mp hl
  exact ⟨p, hp, htl⟩

/-- Helper: transitions in a map entry are registered transitions. -/
theorem registeredEdges_of_entry {α ε : Type} (m : Machine α ε)
    (p : Nat × List (Edge α ε)) (t : Edge α ε)
    (hp : p ∈ m.transitions.getD []) (ht : t ∈ p.2) : t ∈ registeredEdges m :=
  List.mem_flatten.mpr ⟨p.2, List.mem_map.mpr ⟨p, hp, rfl⟩, ht⟩

/-- Helper: `targetsSet` transfers to the per-entry form. -/
theorem htm_of_targetsSet {α ε : Type} (m : Machine α ε)
    (hT : targetsSet m = true) :
    ∀ p ∈ m.transitions.getD [], ∀ t ∈ p.2, t.To.isSome = true := by
  intro p hp t ht
  have h2 := hT
  unfold targetsSet at h2
  rw [List.all_eq_true] at h2
  exact h2 t (registeredEdges_of_entry m p t hp ht)

/-- Helper: `find?` only inspects list members. -/
theorem find?_congr_mem {p q : String → Bool} :
    ∀ l : List String, (∀ x ∈ l, p x = q x) → l.find? p = l.find? q := by
  intro l
  induction l with
  | nil => intro _; rfl
  | cons a rest ih =>
    intro h
    have ha := h a (List.mem_cons_self a rest)
    rw [List.find?_cons, List.find?_cons, ha,
      ih (fun x hx => h x (List.mem_cons_of_mem a hx))]

/-- Helper: the full behavior of `SetEndStates` on a machine whose
transitions all have targets, phrased through the pure scan. -/
theorem setEndStates_eq {α ε : Type} (m : Machine α ε) (names : List String)
    (hT : targetsSet m = true) :
    m.SetEndStates names =
      (match names.find? (fun n =>
            !(seScanPure names (m.transitions.getD [])
                (m.endStates.getD [], [])).2.contains n) with
       | some n =>
          some
            ({ m with
                endStates :=
                  some (seScanPure names (m.transitions.getD [])
                      (m.endStates.getD [], [])).1 },
              some ("invalid state: \x27" ++ n ++ "\x27"))
       | none =>
          some
            ({ m with
                endStates :=
                  some (seScanPure names (m.transitions.getD [])
                      (m.endStates.getD [], [])).1 },
              none)) := by
  have hscan := seScan_eq_pure names (m.transitions.getD [])
    (htm_of_targetsSet m hT) (m.endStates.getD [], [])
  unfold Machine.SetEndStates
  rw [hscan]

/-- Helper: for a requested name, being recorded as valid by the scan is
exactly being the name of some registered transition's target. -/
theorem validNames_eq_nameMatched {α ε : Type} (m : Machine α ε)
    (names : List String) (n : String) (hn : n ∈ names) :
    (seScanPure names (m.transitions.getD [])
        (m.endStates.getD [], [])).2.contains n = nameMatched m n := by
  rw [Bool.eq_iff_iff]
  constructor
  · intro h
    have h1 := (contains_eq_mem _ _).mp h
    rcases seScanPure_vn_sub names _ _ n h1 with h2 | ⟨p, hp, t, ht, s, hTo, hNa⟩
    · exact absurd h2 (List.not_mem_nil n)
    · unfold nameMatched
      rw [List.any_eq_true]
      refine ⟨t, registeredEdges_of_entry m p t hp ht, ?_⟩
      rw [hTo]
      simp [hNa]
  · intro h
    unfold nameMatched at h
    rw [List.any_eq_true] at h
    obtain ⟨t, htreg, hmatch⟩ := h
    cases hTo : t.To with
    | none => rw [hTo] at hmatch; simp at hmatch
    | some s =>
      rw [hTo] at hmatch
      have hNa : s.Name = n := by simpa using hmatch
      obtain ⟨p, hp, ht⟩ := mem_entries_of_registeredEdges m t htreg
      have hcont : names.contains s.Name = true :=
        (contains_eq_mem _ _).mpr (hNa ▸ hn)
      have h3 := (seScanPure_marks names (m.transitions.getD [])
        (m.endStates.getD [], []) p t s hp ht hTo hcont).2
      exact (contains_eq_mem _ _).mpr (hNa ▸ h3)

/-- C5: on a machine whose transitions all have targets, `SetEndStates`
marks the target of every registered transition whose target's name is
requested, returns no error when every requested name matched some
transition target, and otherwise returns an error naming the first
unmatched name in input order. -/
theorem SetEndStates_spec {α ε : Type} (m : Machine α ε) (names : List String)
    (hT : targetsSet m = true) :
    ∃ m1 err, m.SetEndStates names = some (m1, err) ∧
      (∀ t ∈ registeredEdges m, ∀ s, t.To = some s →
        names.contains s.Name = true →
        (mapFind? (m1.endStates.getD []) s.Id).isSome = true) ∧
      (match names.find? (fun n => !nameMatched m n) with
       | none => err = none
       | some n => err = some ("invalid state: \x27" ++ n ++ "\x27")) := by
  have hset := setEndStates_eq m names hT
  have hfe : names.find? (fun n =>
        !(seScanPure names (m.transitions.getD [])
          (m.endStates.getD [], [])).2.contains n)
      = names.find? (fun n => !nameMatched m n) :=
    find?_congr_mem names
      (fun x hx => by rw [validNames_eq_nameMatched m names x hx])
  rw [hfe] at hset
  have hmark : ∀ t ∈ registeredEdges m, ∀ s : GoState, t.To = some s →
      names.contains s.Name = true →
      (mapFind? (seScanPure names (m.transitions.getD [])
        (m.endStates.getD [], [])).1 s.Id).isSome = true := by
    intro t ht s hTo hname
    obtain ⟨p, hp, htp⟩ := mem_entries_of_registeredEdges m t ht
    exact (seScanPure_marks names (m.transitions.getD [])
      (m.endStates.getD [], []) p t s hp htp hTo hname).1
  cases hfind : names.find? (fun n => !nameMatched m n) with
  | none =>
    rw [hfind] at hset
    exact ⟨_, none, hset, hmark, rfl⟩
  | some n =>
    rw [hfind] at hset
    exact ⟨_, some ("invalid state: \x27" ++ n ++ "\x27"), hset, hmark, rfl⟩

/-- Witness for C5: on the fixture machine, requesting end states B and ZZ
fails with an error naming ZZ (the first unmatched name). -/
theorem SetEndStates_spec_witness :
    targetsSet mUpd = true ∧
    ∃ m1 err, mUpd.SetEndStates ["B", "ZZ"] = some (m1, err) ∧
      err = some ("invalid state: \x27ZZ\x27") := by
  refine ⟨rfl, ?_⟩
  obtain ⟨m1, err, h1, -, h3⟩ := SetEndStates_spec mUpd ["B", "ZZ"] rfl
  exact ⟨m1, err, h1, h3⟩

/-- C10: when some requested name matches no registered transition target,
`SetEndStates` returns an error, yet every target whose name did match has
already been added to the end-state set — observable via `IsEndState` once
the machine's current state is such a target. -/
theorem SetEndStates_nonatomic_marking {α ε : Type} (m : Machine α ε)
    (names : List String) (hT : targetsSet m = true)
    (hbad : names.any (fun n => !nameMatched m n) = true) :
    ∃ m1 msg, m.SetEndStates names = some (m1, some msg) ∧
      ∀ t ∈ registeredEdges m, ∀ s, t.To = some s →
        names.contains s.Name = true →
        (({ m1 with curr := some s } : Machine α ε).IsEndState).2 = some true := by
  have hset := setEndStates_eq m names hT
  have hfe : names.find? (fun n =>
        !(seScanPure names (m.transitions.getD [])
          (m.endStates.getD [], [])).2.contains n)
      = names.find? (fun n => !nameMatched m n) :=
    find?_congr_mem names
      (fun x hx => by rw [validNames_eq_nameMatched m names x hx])
  rw [hfe] at hset
  have hfs : (names.find? (fun n => !nameMatched m n)).isSome = true := by
    rw [List.find?_isSome]
    rw [List.any_eq_true] at hbad
    exact hbad
  obtain ⟨n0, hfind⟩ := Option.isSome_iff_exists.mp hfs
  rw [hfind] at hset
  refine ⟨_, _, hset, ?_⟩
  intro t ht s hTo hname
  obtain ⟨p, hp, htp⟩ := mem_entries_of_registeredEdges m t ht
  have h1 := (seScanPure_marks names (m.transitions.getD [])
    (m.endStates.getD [], []) p t s hp htp hTo hname).1
  show (Machine.IsEndState _).2 = some true
  simp only [Machine.IsEndState, h1]

/-- Witness for C10: requesting end states B and ZZ on the fixture machine
fails (ZZ matches nothing), yet B was already marked: with the machine at B,
`IsEndState` answers true. -/
theorem SetEndStates_nonatomic_marking_witness :
    ∃ m1 msg, mUpd.SetEndStates ["B", "ZZ"] = some (m1, some msg) ∧
      (({ m1 with curr := some stB } : Machine Nat String).IsEndState).2 =
        some true := by
  obtain ⟨m1, msg, h1, h2⟩ :=
    SetEndStates_nonatomic_marking mUpd ["B", "ZZ"] rfl rfl
  exact ⟨m1, msg, h1, h2 eAB (List.mem_cons_self eAB [eAC]) stB rfl rfl⟩

/-- Helper: the keys after a map assignment — unchanged for an existing key,
the new key appended otherwise. -/
theorem mapInsert_keys {β : Type} (l : List (Nat × β)) (k : Nat) (v : β) :
    (mapInsert l k v).map Prod.fst =
      if k ∈ l.map Prod.fst then l.map Prod.fst else l.map Prod.fst ++ [k] := by
  induction l with
  | nil => simp [mapInsert]
  | cons p rest ih =>
    obtain ⟨k0, v0⟩ := p
    by_cases hk : k0 = k
    · subst hk
      simp [mapInsert]
    · simp only [mapInsert, if_neg hk, List.map_cons]
      rw [ih]
      by_cases hmem : k ∈ rest.map Prod.fst
      · simp [hmem, Ne.symm hk]
      · simp [hmem, Ne.symm hk]

/-- Helper: the key set after folding entries into a map. -/
theorem insertPairs_keys_toFinset (ps : List (Nat × GoState)) :
    ∀ sm : List (Nat × GoState),
      ((insertPairs sm ps).map Prod.fst).toFinset =
        (sm.map Prod.fst).toFinset ∪ (ps.map Prod.fst).toFinset := by
  induction ps with
  | nil => intro sm; simp [insertPairs]
  | cons p ps1 ih =>
    intro sm
    obtain ⟨k, v⟩ := p
    simp only [insertPairs, List.foldl_cons] at *
    rw [ih (mapInsert sm k v)]
    have hkeys : ((mapInsert sm k v).map Prod.fst).toFinset =
        insert k ((sm.map Prod.fst).toFinset) := by
      rw [mapInsert_keys]
      by_cases hmem : k ∈ sm.map Prod.fst
      · simp [hmem, Finset.insert_eq_self.mpr (List.mem_toFinset.mpr hmem)]
      · simp [hmem, List.toFinset_append]
        rw [Finset.union_comm]
        simp [Finset.insert_eq]
    rw [hkeys]
    simp only [List.map_cons, List.toFinset_cons]
    rw [Finset.insert_union, Finset.union_insert]

/-- Helper: a map assignment keeps the keys duplicate-free. -/
theorem mapInsert_keys_nodup {β : Type} (l : List (Nat × β)) (k : Nat) (v : β)
    (h : (l.map Prod.fst).Nodup) : ((mapInsert l k v).map Prod.fst).Nodup := by
  rw [mapInsert_keys]
  by_cases hmem : k ∈ l.map Prod.fst
  · simpa [hmem] using h
  · simp [hmem, List.nodup_append, h]

/-- Helper: folding entries into a map keeps the keys duplicate-free. -/
theorem insertPairs_keys_nodup (ps : List (Nat × GoState)) :
    ∀ sm : List (Nat × GoState), (sm.map Prod.fst).Nodup →
      ((insertPairs sm ps).map Prod.fst).Nodup := by
  induction ps with
  | nil => intro sm h; exact h
  | cons p ps1 ih =>
    intro sm h
    obtain ⟨k, v⟩ := p
    simp only [insertPairs, List.foldl_cons]
    exact ih _ (mapInsert_keys_nodup sm k v h)

/-- Helper: the size of the map built from the entries is the number of
distinct keys among them. -/
theorem insertPairs_length (ps : List (Nat × GoState)) :
    (insertPairs [] ps).length = (ps.map Prod.fst).dedup.length := by
  have h1 : (insertPairs ([] : List (Nat × GoState)) ps).length =
      ((insertPairs ([] : List (Nat × GoState)) ps).map Prod.fst).length := by
    rw [List.length_map]
  rw [h1, ← List.toFinset_card_of_nodup (insertPairs_keys_nodup ps [] (by simp)),
    insertPairs_keys_toFinset ps [], ← List.card_toFinset]
  simp

/-- Helper: the keys of the entries `Validate` inserts are exactly the state
identifiers it mentions. -/
theorem edgePairs_map_fst {α ε : Type} (edges : List (Edge α ε)) :
    (edgePairs edges).map Prod.fst = edgeIds edges := by
  induction edges with
  | nil => rfl
  | cons t rest ih =>
    simp only [edgePairs, edgeIds, List.map_cons, List.flatten_cons,
      List.map_append] at *
    rw [ih]
    cases t.From <;> cases t.To <;> simp

/-- Helper: on complete transitions, `Validate`'s loop collects the state
map and the name list. -/
theorem validateLoop_ok {α ε : Type} (edges : List (Edge α ε))
    (h : ∀ t ∈ edges, t.From.isSome = true ∧ t.To.isSome = true) :
    ∀ sm ns, validateLoop edges sm ns =
      Except.ok (insertPairs sm (edgePairs edges), ns ++ edgeNames edges) := by
  induction edges with
  | nil => intro sm ns; simp [validateLoop, edgePairs, edgeNames, insertPairs]
  | cons t rest ih =>
    intro sm ns
    obtain ⟨hf, ht⟩ := h t (List.mem_cons_self t rest)
    obtain ⟨f, hf1⟩ := Option.isSome_iff_exists.mp hf
    obtain ⟨s, ht1⟩ := Option.isSome_iff_exists.mp ht
    have hrest : ∀ t1 ∈ rest, t1.From.isSome = true ∧ t1.To.isSome = true :=
      fun t1 ht2 => h t1 (List.mem_cons_of_mem t ht2)
    simp only [validateLoop, hf1, ht1, ih hrest, edgePairs, edgeNames,
      List.map_cons, List.flatten_cons, Option.elim]
    simp [insertPairs, List.append_assoc]

/-- Helper: `Validate`'s loop errors on the first incomplete transition,
naming its description. -/
theorem validateLoop_err {α ε : Type} (edges : List (Edge α ε)) (t : Edge α ε)
    (hfind : edges.find? (fun t1 => !(t1.From.isSome && t1.To.isSome)) = some t) :
    ∀ sm ns, validateLoop edges sm ns = Except.error (incompleteMsg t) := by
  induction edges with
  | nil => simp at hfind
  | cons t0 rest ih =>
    intro sm ns
    cases hbad : (!(t0.From.isSome && t0.To.isSome)) with
    | true =>
      simp only [List.find?_cons, hbad] at hfind
      injection hfind with hfind
      subst hfind
      cases hf : t0.From with
      | none => simp [validateLoop, hf, incompleteMsg]
      | some f =>
        cases ht : t0.To with
        | none => simp [validateLoop, hf, ht, incompleteMsg]
        | some s => rw [hf, ht] at hbad; simp at hbad
    | false =>
      simp only [List.find?_cons, hbad] at hfind
      have hgood : t0.From.isSome = true ∧ t0.To.isSome = true := by
        simpa using hbad
      obtain ⟨f, hf1⟩ := Option.isSome_iff_exists.mp hgood.1
      obtain ⟨s, ht1⟩ := Option.isSome_iff_exists.mp hgood.2
      simp only [validateLoop, hf1, ht1]
      exact ih hfind _ _

/-- C8: `Validate` errors when no start state is set; otherwise errors on
the first registered transition missing a source or target, naming that
transition's description; otherwise errors exactly when the count of
distinct state names across all registered transitions differs from the
count of distinct state identifiers, and returns nil for a machine with a
start state, complete transitions, and unique state names. -/
theorem Validate_spec {α ε : Type} (m : Machine α ε) :
    (m.start = none → m.Validate = some "no start state set") ∧
    (m.start.isSome = true →
      match (registeredEdges m).find?
          (fun t => !(t.From.isSome && t.To.isSome)) with
      | some t => m.Validate = some (incompleteMsg t)
      | none =>
          if distinctNameCount m = distinctIdCount m
          then m.Validate = none
          else m.Validate = some "invalid: all state names must be unique") := by
  constructor
  · intro h
    unfold Machine.Validate
    rw [h]
  · intro hs
    obtain ⟨s0, hs0⟩ := Option.isSome_iff_exists.mp hs
    cases hfind : (registeredEdges m).find?
        (fun t => !(t.From.isSome && t.To.isSome)) with
    | some t =>
      unfold Machine.Validate
      rw [hs0, validateLoop_err (registeredEdges m) t hfind]
    | none =>
      have hcomplete : ∀ t ∈ registeredEdges m,
          t.From.isSome = true ∧ t.To.isSome = true := by
        intro t ht
        have h1 := List.find?_eq_none.mp hfind t ht
        simpa [Option.isSome_iff_ne_none] using h1
      have hok := validateLoop_ok (registeredEdges m) hcomplete [] []
      have hlen : (insertPairs [] (edgePairs (registeredEdges m))).length =
          distinctIdCount m := by
        rw [insertPairs_length, edgePairs_map_fst]
        rfl
      by_cases heq : distinctNameCount m = distinctIdCount m
      · simp only [heq, if_true]
        unfold Machine.Validate
        rw [hs0, hok]
        simp only [List.nil_append]
        rw [if_neg]
        rw [Decidable.not_not]
        rw [hlen]
        exact heq
      · simp only [heq, if_false]
        unfold Machine.Validate
        rw [hs0, hok]
        simp only [List.nil_append]
        rw [if_pos]
        rw [hlen]
        exact heq

/-- Witness for C8: the fixture machine (start A, complete transitions
A → B and A → C with unique names) validates without error. -/
theorem Validate_spec_witness : mUpd.Validate = none :=
  (Validate_spec mUpd).2 rfl

end Fsm
